import Mathlib

/-!
# Shallow embedding of the `ml_research_assistant` RAG core

This file embeds, in Lean, the chunking engine (`app/ingestion/chunking.py`),
the evaluation engine (`app/rag/evaluation.py`), the reranker
(`app/rag/reranker.py`) and the pipeline orchestrator (`app/rag/pipeline.py`)
of the repository, and proves/refutes the frozen specification claims about
them.

Modelling conventions:
* Python strings are Lean `String`s (operated on through their `List Char`
  data where a character-level scan is embedded).
* Python `float` scores and thresholds are modelled as exact rationals `ℚ`
  (the claims under study are about comparisons and ordering, not about IEEE
  rounding); the `np.log2`-based NDCG metric is modelled over `ℝ` with
  `Real.logb 2`.
* Python object identity (`id(...)`) and in-place dictionary mutation are
  modelled with an explicit heap `ℕ → Option ChunkDict` together with a
  fresh-address counter: `dict.copy()` allocates at a fresh address.
* Fallible collaborators (the cross-encoder load) are modelled with
  `Except`/`Option` values passed in explicitly.
-/

/-! ## Python string primitives -/

/-- Python `str.split()` (no separator): scan the characters, splitting on
maximal whitespace runs and dropping empty pieces.  `acc` is the current
token, reversed. -/
def wsTokensGo : List Char → List Char → List (List Char)
  | [], acc => if acc = [] then [] else [acc.reverse]
  | c :: rest, acc =>
    if c.isWhitespace then
      if acc = [] then wsTokensGo rest [] else acc.reverse :: wsTokensGo rest []
    else wsTokensGo rest (c :: acc)

/-- Python `text.split()` on a Lean `String`. -/
def pySplitWs (s : String) : List String :=
  (wsTokensGo s.data []).map (fun cs => String.mk cs)

/-- Python `str.strip()`: drop whitespace from both ends. -/
def pyStrip (cs : List Char) : List Char :=
  ((cs.dropWhile Char.isWhitespace).reverse.dropWhile Char.isWhitespace).reverse

/-- The sentence-boundary punctuation of `_split_into_sentences`. -/
def isSentPunct (c : Char) : Bool := c = '.' || c = '!' || c = '?'

/-- Head of the reversed current piece is boundary punctuation. -/
def headIsPunct : List Char → Bool
  | [] => false
  | p :: _ => isSentPunct p

mutual

/-- One pass of `re.split(r'(?<=[.!?])\s+', text)`: `cur` is the current
piece, reversed.  A whitespace character immediately preceded by `.`, `!` or
`?` opens a delimiter run: the piece is emitted and the run is skipped. -/
def sentPiecesGo : List Char → List Char → List (List Char)
  | [], cur => [cur.reverse]
  | c :: rest, cur =>
    if c.isWhitespace && headIsPunct cur then
      cur.reverse :: sentSkipWs rest
    else sentPiecesGo rest (c :: cur)

/-- Skip the remainder of a delimiter whitespace run, then resume scanning
(the run is maximal, matching the greedy `\s+`). -/
def sentSkipWs : List Char → List (List Char)
  | [] => [[]]
  | c :: rest => if c.isWhitespace then sentSkipWs rest else sentPiecesGo rest [c]

end

/-- `_split_into_sentences` of `app/ingestion/chunking.py`: regex split on
whitespace preceded by boundary punctuation, then `[s.strip() for s in
sentences if s.strip()]`. -/
def splitIntoSentences (text : String) : List String :=
  (((sentPiecesGo text.data []).map pyStrip).filter
      (fun cs => decide (cs ≠ []))).map (fun cs => String.mk cs)

/-- Python `" ".join(pieces)` (`_tokens_to_text`). -/
def pyJoinSpace (pieces : List String) : String := String.intercalate " " pieces

/-- Python `range(0, n, step)` for non-negative bounds.  CPython raises
`ValueError` for `step = 0`; no claim depends on that case and we model it as
the empty range. -/
def pyRange (n step : ℕ) : List ℕ :=
  if step = 0 then [] else List.range' 0 ((n + step - 1) / step) step

/-! ## Data model -/

/-- A loaded paper (`load_arxiv_papers` produces dicts with keys
`id`, `title`, `abstract`, `article`). -/
structure Paper where
  id : String
  title : String
  abstract : String
  article : String
deriving DecidableEq

/-- A chunk/candidate dictionary.  The chunking engine fills the first seven
fields; the retriever adds `score` (distance, lower = closer), the reranker
adds `rerank_score` and `original_rank`.  Keys absent from a given Python
dict are `none`. -/
structure ChunkDict where
  paper_id : String
  title : String
  abstract : String
  chunk_text : String
  start_token : ℕ
  end_token : ℕ
  chunking_strategy : String
  score : Option ℚ
  rerank_score : Option ℚ
  original_rank : Option ℕ
deriving DecidableEq

instance : Inhabited ChunkDict :=
  ⟨⟨"", "", "", "", 0, 0, "", none, none, none⟩⟩

/-- `ChunkingConfig` of `app/config.py` (defaults there: 300/50/"semantic"). -/
structure ChunkingConfig where
  chunk_size_tokens : ℕ
  chunk_overlap_tokens : ℕ
  strategy : String

/-! ## Chunking engine (`app/ingestion/chunking.py`) -/

/-- `chunk_paper_fixed_size`: whitespace tokens, windows of
`chunk_size_tokens` with stride `chunk_size_tokens - chunk_overlap_tokens`,
empty windows dropped, `end_token` clamped to the token count. -/
def chunk_paper_fixed_size (conf : ChunkingConfig) (paper : Paper) : List ChunkDict :=
  let tokens := pySplitWs paper.article
  let step := conf.chunk_size_tokens - conf.chunk_overlap_tokens
  (pyRange tokens.length step).filterMap (fun start =>
    let chunk_tokens := (tokens.drop start).take conf.chunk_size_tokens
    if chunk_tokens = [] then none
    else some
      { paper_id := paper.id
        title := paper.title
        abstract := paper.abstract
        chunk_text := pyJoinSpace chunk_tokens
        start_token := start
        end_token := min (start + conf.chunk_size_tokens) tokens.length
        chunking_strategy := "fixed_size"
        score := none
        rerank_score := none
        original_rank := none })

/-- `chunk_paper_sentence_based`: windows of `max_sentences` sentences with
stride `max_sentences - overlap_sentences`. -/
def chunk_paper_sentence_based (paper : Paper) (max_sentences overlap_sentences : ℕ) :
    List ChunkDict :=
  let sentences := splitIntoSentences paper.article
  let step := max_sentences - overlap_sentences
  (pyRange sentences.length step).filterMap (fun start =>
    let chunk_sentences := (sentences.drop start).take max_sentences
    if chunk_sentences = [] then none
    else some
      { paper_id := paper.id
        title := paper.title
        abstract := paper.abstract
        chunk_text := pyJoinSpace chunk_sentences
        start_token := start
        end_token := min (start + max_sentences) sentences.length
        chunking_strategy := "sentence_based"
        score := none
        rerank_score := none
        original_rank := none })

/-- The chunk emitted by the semantic strategy: `start_token` is the number
of previously emitted chunks, `end_token` is that plus one. -/
def mkSemanticChunk (paper : Paper) (idx : ℕ) (cur : List String) : ChunkDict :=
  { paper_id := paper.id
    title := paper.title
    abstract := paper.abstract
    chunk_text := pyJoinSpace cur
    start_token := idx
    end_token := idx + 1
    chunking_strategy := "semantic"
    score := none
    rerank_score := none
    original_rank := none }

/-- The sentence loop of `chunk_paper_semantic`: greedy token-budget
accumulation with a two-sentence overlap seed, flushing the final non-empty
buffer. -/
def semGo (paper : Paper) (chunk_size_tokens : ℕ) :
    List String → List ChunkDict → List String → ℕ → List ChunkDict
  | [], chunks, cur, _ =>
    if cur = [] then chunks else chunks ++ [mkSemanticChunk paper chunks.length cur]
  | s :: rest, chunks, cur, cursize =>
    let stoks := (pySplitWs s).length
    if chunk_size_tokens < cursize + stoks ∧ cur ≠ [] then
      let chunks2 := chunks ++ [mkSemanticChunk paper chunks.length cur]
      let ov := if 2 ≤ cur.length then cur.drop (cur.length - 2) else cur
      let cur2 := ov ++ [s]
      semGo paper chunk_size_tokens rest chunks2 cur2
        ((cur2.map (fun t => (pySplitWs t).length)).sum)
    else
      semGo paper chunk_size_tokens rest chunks (cur ++ [s]) (cursize + stoks)

/-- `chunk_paper_semantic` (its `similarity_threshold` parameter is unused by
the code and omitted). -/
def chunk_paper_semantic (paper : Paper) (chunk_size_tokens : ℕ) : List ChunkDict :=
  semGo paper chunk_size_tokens (splitIntoSentences paper.article) [] [] 0

/-- The three values of the `Literal` strategy type of `chunk_paper`. -/
inductive Strategy
  | fixed_size
  | sentence_based
  | semantic
deriving DecidableEq

/-- `chunk_paper`: dispatch on the strategy.  `fixed_size` reads the global
chunking configuration (passed here explicitly); the other strategies use
their Python default parameters (10/2 sentences, 300 tokens). -/
def chunk_paper (conf : ChunkingConfig) (paper : Paper) (strategy : Strategy) :
    List ChunkDict :=
  match strategy with
  | .fixed_size => chunk_paper_fixed_size conf paper
  | .sentence_based => chunk_paper_sentence_based paper 10 2
  | .semantic => chunk_paper_semantic paper 300

/-- C2 (confirmed): with `chunk_size = 2` tokens and `overlap = 1` token,
`fixed_size` chunking of the body `"Sentence one. Sentence two. Sentence
three."` (6 whitespace tokens) produces chunks whose `start_offset` values
are the consecutive sequence `0,1,2,3,4,5`, each window 2 tokens wide with
the final window's `end_offset` clamped to the token count `6`. -/
theorem C2_fixed_size_example :
    (pySplitWs "Sentence one. Sentence two. Sentence three.").length = 6 ∧
    (chunk_paper_fixed_size ⟨2, 1, "fixed_size"⟩
        ⟨"0", "", "", "Sentence one. Sentence two. Sentence three."⟩).map
      (fun c => (c.start_token, c.end_token)) =
    [(0, 2), (1, 3), (2, 4), (3, 5), (4, 6), (5, 6)] := by decide

/-! ## Lemmas about the Python string primitives -/

theorem wsTokensGo_eq_nil_iff (cs : List Char) :
    ∀ acc, wsTokensGo cs acc = [] ↔ (∀ c ∈ cs, c.isWhitespace) ∧ acc = [] := by
  induction cs with
  | nil =>
    intro acc
    by_cases h : acc = [] <;> simp [wsTokensGo, h]
  | cons c rest ih =>
    intro acc
    by_cases hw : c.isWhitespace
    · by_cases h : acc = []
      · simp [wsTokensGo, hw, h, ih]
      · simp [wsTokensGo, hw, h]
    · simp [wsTokensGo, hw, ih]

theorem pySplitWs_eq_nil_iff (s : String) :
    pySplitWs s = [] ↔ ∀ c ∈ s.data, c.isWhitespace := by
  simp [pySplitWs, wsTokensGo_eq_nil_iff]

theorem isSentPunct_eq_false_of_ws {c : Char} (h : c.isWhitespace = true) :
    isSentPunct c = false := by
  by_contra hne
  have h1 : isSentPunct c = true := by
    cases hb : isSentPunct c
    · exact absurd hb hne
    · rfl
  unfold isSentPunct at h1
  simp only [Bool.or_eq_true, decide_eq_true_eq] at h1
  rcases h1 with (h1 | h1) | h1 <;> subst h1 <;> exact absurd h (by decide)

theorem sentPiecesGo_cons_pos {c : Char} {rest cur : List Char}
    (h : (c.isWhitespace && headIsPunct cur) = true) :
    sentPiecesGo (c :: rest) cur = cur.reverse :: sentSkipWs rest := by
  simp [sentPiecesGo, h]

theorem sentPiecesGo_cons_neg {c : Char} {rest cur : List Char}
    (h : (c.isWhitespace && headIsPunct cur) = false) :
    sentPiecesGo (c :: rest) cur = sentPiecesGo rest (c :: cur) := by
  simp [sentPiecesGo, h]

theorem sentSkipWs_cons_ws {c : Char} {rest : List Char} (h : c.isWhitespace = true) :
    sentSkipWs (c :: rest) = sentSkipWs rest := by
  simp [sentSkipWs, h]

theorem sentSkipWs_cons_nws {c : Char} {rest : List Char} (h : c.isWhitespace = false) :
    sentSkipWs (c :: rest) = sentPiecesGo rest [c] := by
  simp [sentSkipWs, h]

theorem sentPiecesGo_all_ws (cs : List Char) :
    ∀ cur, (∀ c ∈ cs, c.isWhitespace) → (∀ c ∈ cur, c.isWhitespace) →
      sentPiecesGo cs cur = [cur.reverse ++ cs] := by
  induction cs with
  | nil => intro cur _ _; simp [sentPiecesGo]
  | cons c rest ih =>
    intro cur hcs hcur
    have hwc : c.isWhitespace := hcs c (by simp)
    have hpunct : headIsPunct cur = false := by
      cases cur with
      | nil => rfl
      | cons p tl => exact isSentPunct_eq_false_of_ws (hcur p (by simp))
    rw [sentPiecesGo_cons_neg (by simp [hpunct])]
    rw [ih (c :: cur) (fun x hx => hcs x (by simp [hx]))
      (fun x hx => by
        rcases List.mem_cons.mp hx with rfl | hx
        · exact hwc
        · exact hcur x hx)]
    simp

theorem sentPieces_witness :
    ∀ n (cs : List Char), cs.length ≤ n →
      ((∀ (cur : List Char) (x : Char), (x ∈ cs ∨ x ∈ cur) → x.isWhitespace = false →
          ∃ p ∈ sentPiecesGo cs cur, x ∈ p) ∧
        (∀ x : Char, x ∈ cs → x.isWhitespace = false → ∃ p ∈ sentSkipWs cs, x ∈ p)) := by
  intro n
  induction n with
  | zero =>
    intro cs hlen
    have hnil : cs = [] := List.length_eq_zero.mp (Nat.le_zero.mp hlen)
    subst hnil
    constructor
    · intro cur x hx hws
      rcases hx with h | h
      · simp at h
      · exact ⟨cur.reverse, by simp [sentPiecesGo], List.mem_reverse.mpr h⟩
    · intro x hx _; simp at hx
  | succ n ihn =>
    intro cs hlen
    cases cs with
    | nil =>
      constructor
      · intro cur x hx hws
        rcases hx with h | h
        · simp at h
        · exact ⟨cur.reverse, by simp [sentPiecesGo], List.mem_reverse.mpr h⟩
      · intro x hx _; simp at hx
    | cons c rest =>
      have hrest : rest.length ≤ n := by simp at hlen; omega
      obtain ⟨ih1, ih2⟩ := ihn rest hrest
      constructor
      · intro cur x hx hws
        by_cases hcond : (c.isWhitespace && headIsPunct cur) = true
        · have hwc : c.isWhitespace = true := by
            simp only [Bool.and_eq_true] at hcond
            exact hcond.1
          rw [sentPiecesGo_cons_pos hcond]
          rcases hx with hxc | hxcur
          · rcases List.mem_cons.mp hxc with rfl | hxr
            · rw [hws] at hwc; cases hwc
            · obtain ⟨p, hp, hxp⟩ := ih2 x hxr hws
              exact ⟨p, by simp [hp], hxp⟩
          · exact ⟨cur.reverse, by simp, List.mem_reverse.mpr hxcur⟩
        · rw [sentPiecesGo_cons_neg (by simpa using hcond)]
          have hx' : x ∈ rest ∨ x ∈ c :: cur := by
            rcases hx with hxc | hxcur
            · rcases List.mem_cons.mp hxc with rfl | hxr
              · exact Or.inr (by simp)
              · exact Or.inl hxr
            · exact Or.inr (by simp [hxcur])
          exact ih1 (c :: cur) x hx' hws
      · intro x hx hws
        by_cases hwc : c.isWhitespace = true
        · rw [sentSkipWs_cons_ws hwc]
          rcases List.mem_cons.mp hx with rfl | hxr
          · rw [hws] at hwc; cases hwc
          · exact ih2 x hxr hws
        · rw [sentSkipWs_cons_nws (by simpa using hwc)]
          rcases List.mem_cons.mp hx with rfl | hxr
          · exact ih1 [x] x (Or.inr (by simp)) hws
          · exact ih1 [c] x (Or.inl hxr) hws

theorem mem_dropWhile_of_not {α : Type} {p : α → Bool} :
    ∀ {l : List α} {c : α}, c ∈ l → p c = false → c ∈ l.dropWhile p := by
  intro l
  induction l with
  | nil => intro c h _; simp at h
  | cons a tl ih =>
    intro c hc hpc
    rcases List.mem_cons.mp hc with rfl | htl
    · rw [List.dropWhile_cons, if_neg (by simp [hpc])]
      simp
    · by_cases hpa : p a = true
      · rw [List.dropWhile_cons, if_pos hpa]
        exact ih htl hpc
      · rw [List.dropWhile_cons, if_neg hpa]
        simp [htl]

theorem mem_pyStrip {cs : List Char} {c : Char} (hc : c ∈ cs)
    (hw : c.isWhitespace = false) : c ∈ pyStrip cs := by
  unfold pyStrip
  apply List.mem_reverse.mpr
  apply mem_dropWhile_of_not _ hw
  apply List.mem_reverse.mpr
  exact mem_dropWhile_of_not hc hw

theorem pyStrip_eq_nil {cs : List Char} (h : ∀ c ∈ cs, c.isWhitespace) :
    pyStrip cs = [] := by
  unfold pyStrip
  have h1 : cs.dropWhile Char.isWhitespace = [] := List.dropWhile_eq_nil_iff.mpr h
  simp [h1]

theorem splitIntoSentences_eq_nil_iff (s : String) :
    splitIntoSentences s = [] ↔ ∀ c ∈ s.data, c.isWhitespace := by
  constructor
  · intro h
    by_contra hall
    push_neg at hall
    obtain ⟨x, hx, hxw⟩ := hall
    have hxw' : x.isWhitespace = false := by simpa using hxw
    obtain ⟨p, hp, hxp⟩ :=
      ((sentPieces_witness s.data.length s.data le_rfl).1) [] x (Or.inl hx) hxw'
    have hmem2 : pyStrip p ∈ (sentPiecesGo s.data []).map pyStrip :=
      List.mem_map_of_mem _ hp
    have hne : pyStrip p ≠ [] := List.ne_nil_of_mem (mem_pyStrip hxp hxw')
    have hmem3 : pyStrip p ∈
        ((sentPiecesGo s.data []).map pyStrip).filter (fun cs => decide (cs ≠ [])) :=
      List.mem_filter.mpr ⟨hmem2, by simp [hne]⟩
    have hne2 : splitIntoSentences s ≠ [] := by
      unfold splitIntoSentences
      simp only [ne_eq, List.map_eq_nil_iff]
      exact List.ne_nil_of_mem hmem3
    exact hne2 h
  · intro h
    unfold splitIntoSentences
    rw [sentPiecesGo_all_ws s.data [] h (by simp)]
    simp [pyStrip_eq_nil h]

/-! ## Lemmas about `pyRange` and the window strategies -/

theorem pyRange_eq_nil_iff {n step : ℕ} (h : 1 ≤ step) :
    pyRange n step = [] ↔ n = 0 := by
  unfold pyRange
  rw [if_neg (by omega), List.range'_eq_nil]
  constructor
  · intro h0
    have := (Nat.div_eq_zero_iff (by omega)).mp h0
    omega
  · intro h0
    subst h0
    exact (Nat.div_eq_zero_iff (by omega)).mpr (by omega)

theorem zero_mem_pyRange {n step : ℕ} (hs : 1 ≤ step) (hn : 1 ≤ n) :
    0 ∈ pyRange n step := by
  unfold pyRange
  rw [if_neg (by omega)]
  apply List.mem_range'.mpr
  refine ⟨0, ?_, by simp⟩
  have h1 : 1 ≤ (n + step - 1) / step := (Nat.le_div_iff_mul_le (by omega)).mpr (by omega)
  omega

theorem chunk_paper_fixed_size_eq_nil_iff (conf : ChunkingConfig) (paper : Paper)
    (h : conf.chunk_overlap_tokens < conf.chunk_size_tokens) :
    chunk_paper_fixed_size conf paper = [] ↔ pySplitWs paper.article = [] := by
  unfold chunk_paper_fixed_size
  simp only []
  constructor
  · intro hres
    by_contra htok
    have hlen : 1 ≤ (pySplitWs paper.article).length := List.length_pos.mpr htok
    have h0 : 0 ∈ pyRange (pySplitWs paper.article).length
        (conf.chunk_size_tokens - conf.chunk_overlap_tokens) :=
      zero_mem_pyRange (by omega) hlen
    rw [List.filterMap_eq_nil_iff] at hres
    have hf := hres 0 h0
    have hck : (((pySplitWs paper.article).drop 0).take conf.chunk_size_tokens) ≠ [] := by
      rw [ne_eq, List.take_eq_nil_iff]
      push_neg
      exact ⟨by omega, by simpa using htok⟩
    rw [if_neg hck] at hf
    exact Option.some_ne_none _ hf
  · intro htok
    rw [htok]
    simp only [List.length_nil]
    rw [(pyRange_eq_nil_iff (by omega)).mpr rfl]
    rfl

theorem chunk_paper_sentence_based_eq_nil_iff (paper : Paper)
    (max_sentences overlap_sentences : ℕ) (h : overlap_sentences < max_sentences) :
    chunk_paper_sentence_based paper max_sentences overlap_sentences = [] ↔
      splitIntoSentences paper.article = [] := by
  unfold chunk_paper_sentence_based
  simp only []
  constructor
  · intro hres
    by_contra hsent
    have hlen : 1 ≤ (splitIntoSentences paper.article).length := List.length_pos.mpr hsent
    have h0 : 0 ∈ pyRange (splitIntoSentences paper.article).length
        (max_sentences - overlap_sentences) :=
      zero_mem_pyRange (by omega) hlen
    rw [List.filterMap_eq_nil_iff] at hres
    have hf := hres 0 h0
    have hck : (((splitIntoSentences paper.article).drop 0).take max_sentences) ≠ [] := by
      rw [ne_eq, List.take_eq_nil_iff]
      push_neg
      exact ⟨by omega, by simpa using hsent⟩
    rw [if_neg hck] at hf
    exact Option.some_ne_none _ hf
  · intro hsent
    rw [hsent]
    simp only [List.length_nil]
    rw [(pyRange_eq_nil_iff (by omega)).mpr rfl]
    rfl

theorem semGo_ne_nil (paper : Paper) (csize : ℕ) :
    ∀ (rest : List String) (chunks : List ChunkDict) (cur : List String) (sz : ℕ),
      (chunks ≠ [] ∨ cur ≠ []) → semGo paper csize rest chunks cur sz ≠ [] := by
  intro rest
  induction rest with
  | nil =>
    intro chunks cur sz h
    unfold semGo
    by_cases hc : cur = []
    · rw [if_pos hc]
      rcases h with h | h
      · exact h
      · exact absurd hc h
    · rw [if_neg hc]
      simp
  | cons s rest ih =>
    intro chunks cur sz h
    simp only [semGo]
    split_ifs with h1 h2 <;> exact ih _ _ _ (Or.inr (by simp))

theorem chunk_paper_semantic_eq_nil_iff (paper : Paper) (csize : ℕ) :
    chunk_paper_semantic paper csize = [] ↔ splitIntoSentences paper.article = [] := by
  unfold chunk_paper_semantic
  constructor
  · intro h
    by_contra hs
    cases hsent : splitIntoSentences paper.article with
    | nil => exact hs hsent
    | cons s rest =>
      rw [hsent] at h
      have hstep : semGo paper csize (s :: rest) [] [] 0 =
          semGo paper csize rest [] ([] ++ [s]) (0 + (pySplitWs s).length) := by
        simp only [semGo]
        rw [if_neg (by simp)]
      rw [hstep] at h
      exact semGo_ne_nil paper csize rest [] ([] ++ [s]) _ (Or.inr (by simp)) h
  · intro h
    rw [h]
    simp [semGo]

/-- C3 (corrected): for every document, every strategy and any positive
fixed-size stride, chunking yields zero chunks iff the body contains no
non-whitespace character (it tokenizes/sentence-splits to nothing); in
particular an empty body yields zero chunks, and chunking is a total
function (no error).  The original claim's "iff the body is empty" fails on
whitespace-only bodies. -/
theorem C3_zero_chunks_iff_whitespace_body (conf : ChunkingConfig) (paper : Paper)
    (strategy : Strategy)
    (hstride : conf.chunk_overlap_tokens < conf.chunk_size_tokens) :
    chunk_paper conf paper strategy = [] ↔ ∀ c ∈ paper.article.data, c.isWhitespace := by
  cases strategy with
  | fixed_size =>
    rw [show chunk_paper conf paper .fixed_size = chunk_paper_fixed_size conf paper from rfl]
    rw [chunk_paper_fixed_size_eq_nil_iff conf paper hstride, pySplitWs_eq_nil_iff]
  | sentence_based =>
    rw [show chunk_paper conf paper .sentence_based =
        chunk_paper_sentence_based paper 10 2 from rfl]
    rw [chunk_paper_sentence_based_eq_nil_iff paper 10 2 (by omega),
      splitIntoSentences_eq_nil_iff]
  | semantic =>
    rw [show chunk_paper conf paper .semantic = chunk_paper_semantic paper 300 from rfl]
    rw [chunk_paper_semantic_eq_nil_iff, splitIntoSentences_eq_nil_iff]

/-- C3 counterexample: the single-space body `" "` is not empty, yet every
strategy produces zero chunks for it (shown here for `fixed_size` with the
valid stride `2 - 1 = 1`), refuting "zero chunks iff the body is empty". -/
theorem C3_counterexample :
    chunk_paper ⟨2, 1, "fixed_size"⟩ ⟨"0", "", "", " "⟩ .fixed_size = [] ∧
    (" " : String) ≠ "" := by decide

/-- Witness for `C3_zero_chunks_iff_whitespace_body` at a concrete input. -/
theorem C3_witness :
    chunk_paper ⟨2, 1, "fixed_size"⟩ ⟨"0", "", "", ""⟩ .fixed_size = [] :=
  (C3_zero_chunks_iff_whitespace_body ⟨2, 1, "fixed_size"⟩ ⟨"0", "", "", ""⟩
    .fixed_size (by decide)).mpr (by decide)

/-! ## Evaluation engine (`app/rag/evaluation.py`) -/

/-- The decimal digit character for `d` (valid for `d < 10`). -/
def digitChar (d : ℕ) : Char := Char.ofNat (48 + d)

/-- Decimal rendering of a natural number, as produced by the Python
f-string `f"chunk_{i}"`. -/
def decimalStr (n : ℕ) : String :=
  if n = 0 then "0" else String.mk ((Nat.digits 10 n).reverse.map digitChar)

/-- The synthetic identifier `f"chunk_{i}"` used by `evaluate_rag`. -/
def chunkId (i : ℕ) : String := "chunk_" ++ decimalStr i

/-- `precision_at_k`: fraction of the top-`k` retrieved ids that are in the
relevant set (`0.0` when `k = 0`). -/
noncomputable def precision_at_k (retrieved : List String) (relevant : Finset String)
    (k : ℕ) : ℝ :=
  if k = 0 then 0
  else ((retrieved.take k).countP (fun item => decide (item ∈ relevant)) : ℝ) / (k : ℝ)

/-- `recall_at_k`: fraction of the relevant set found in the top-`k`
retrieved ids (`0.0` when the relevant set is empty). -/
noncomputable def recall_at_k (retrieved : List String) (relevant : Finset String)
    (k : ℕ) : ℝ :=
  if relevant.card = 0 then 0
  else ((retrieved.take k).countP (fun item => decide (item ∈ relevant)) : ℝ) /
    (relevant.card : ℝ)

/-- The scan of `mean_reciprocal_rank`, with `rank` the 1-based position. -/
noncomputable def mrrGo (relevant : Finset String) : List String → ℕ → ℝ
  | [], _ => 0
  | item :: rest, rank =>
    if item ∈ relevant then 1 / (rank : ℝ) else mrrGo relevant rest (rank + 1)

/-- `mean_reciprocal_rank`: reciprocal 1-based rank of the first relevant
item (`0.0` when none is found). -/
noncomputable def mean_reciprocal_rank (retrieved : List String)
    (relevant : Finset String) : ℝ :=
  mrrGo relevant retrieved 1

/-- `np.log2`. -/
noncomputable def log2r (x : ℝ) : ℝ := Real.logb 2 x

/-- The DCG accumulation of `ndcg_at_k`: add `1 / log2 (rank + 1)` for each
relevant item, with `rank` the 1-based position. -/
noncomputable def dcgGo (relevant : Finset String) : List String → ℕ → ℝ
  | [], _ => 0
  | item :: rest, rank =>
    (if item ∈ relevant then 1 / log2r ((rank : ℝ) + 1) else 0) +
      dcgGo relevant rest (rank + 1)

/-- The IDCG accumulation of `ndcg_at_k`: `m` ideal relevant items starting
at 1-based `rank`. -/
noncomputable def idcgGo : ℕ → ℕ → ℝ
  | 0, _ => 0
  | m + 1, rank => 1 / log2r ((rank : ℝ) + 1) + idcgGo m (rank + 1)

/-- `ndcg_at_k`: `DCG@k / IDCG@k`, with the guards of the source
(`0.0` when `k = 0`, the relevant set is empty, or `IDCG ≤ 0`). -/
noncomputable def ndcg_at_k (retrieved : List String) (relevant : Finset String)
    (k : ℕ) : ℝ :=
  if k = 0 ∨ relevant.card = 0 then 0
  else if 0 < idcgGo (min relevant.card k) 1 then
    dcgGo relevant (retrieved.take k) 1 / idcgGo (min relevant.card k) 1
  else 0

/-- `f1_score_at_k`: harmonic mean of precision and recall, `0.0` when both
vanish. -/
noncomputable def f1_score_at_k (retrieved : List String) (relevant : Finset String)
    (k : ℕ) : ℝ :=
  if precision_at_k retrieved relevant k + recall_at_k retrieved relevant k = 0 then 0
  else 2 * (precision_at_k retrieved relevant k * recall_at_k retrieved relevant k) /
    (precision_at_k retrieved relevant k + recall_at_k retrieved relevant k)

/-- `set(query.lower().split())` in `evaluate_rag`. -/
def queryWords (query : String) : Finset String := (pySplitWs query.toLower).toFinset

/-- `keyword_overlap` of `evaluate_rag`: fraction of the query word set also
present in the chunk's word set (`chunk.get("chunk_text", "").lower().split()`),
with denominator `max(len(query_words), 1)`. -/
def keywordOverlap (query_words : Finset String) (c : ChunkDict) : ℚ :=
  ((query_words ∩ (pySplitWs c.chunk_text.toLower).toFinset).card : ℚ) /
    ((max query_words.card 1 : ℕ) : ℚ)

/-- The relevance heuristic of `evaluate_rag`: `score < 0.5` (a missing
score defaults to `1.0`) or `keyword_overlap > 0.3`. -/
def isRelevantChunk (query_words : Finset String) (c : ChunkDict) : Bool :=
  decide (c.score.getD 1 < (1 / 2 : ℚ)) ||
    decide ((3 / 10 : ℚ) < keywordOverlap query_words c)

/-- The `chunk_ids` list built by the `evaluate_rag` loop over
`enumerate(retrieved_chunks[:k])`. -/
def evalChunkIds (retrieved_chunks : List ChunkDict) (k : ℕ) : List String :=
  (retrieved_chunks.take k).enum.map (fun p => chunkId p.1)

/-- The `relevant_ids` set built by the `evaluate_rag` loop: the ids of the
positions in the top-`k` window whose chunk passes the relevance
heuristic. -/
def evalRelevantIds (retrieved_chunks : List ChunkDict) (query : String) (k : ℕ) :
    Finset String :=
  (((retrieved_chunks.take k).enum.filter
      (fun p => isRelevantChunk (queryWords query) p.2)).map
    (fun p => chunkId p.1)).toFinset

/-- The five metric values returned by `evaluate_rag`. -/
structure RagMetrics where
  precision_at_k : ℝ
  recall_at_k : ℝ
  mrr : ℝ
  ndcg_at_k : ℝ
  f1_at_k : ℝ

/-- `evaluate_rag`: derive the heuristic relevance set from the top-`k`
window and compute the five metrics over the synthetic ids. -/
noncomputable def evaluate_rag (retrieved_chunks : List ChunkDict) (query : String)
    (k : ℕ) : RagMetrics :=
  let chunk_ids := evalChunkIds retrieved_chunks k
  let relevant_ids := evalRelevantIds retrieved_chunks query k
  { precision_at_k := precision_at_k chunk_ids relevant_ids k
    recall_at_k := recall_at_k chunk_ids relevant_ids k
    mrr := mean_reciprocal_rank chunk_ids relevant_ids
    ndcg_at_k := ndcg_at_k chunk_ids relevant_ids k
    f1_at_k := f1_score_at_k chunk_ids relevant_ids k }

/-! ## Lemmas: synthetic ids are pairwise distinct -/

theorem digitChar_inj_lt : ∀ a < 10, ∀ b < 10, digitChar a = digitChar b → a = b := by
  decide

theorem map_digitChar_inj :
    ∀ (l1 l2 : List ℕ), (∀ x ∈ l1, x < 10) → (∀ x ∈ l2, x < 10) →
      l1.map digitChar = l2.map digitChar → l1 = l2 := by
  intro l1
  induction l1 with
  | nil =>
    intro l2 _ _ h
    cases l2 with
    | nil => rfl
    | cons b t2 => simp at h
  | cons a t ih =>
    intro l2 h1 h2 h
    cases l2 with
    | nil => simp at h
    | cons b t2 =>
      simp only [List.map_cons, List.cons.injEq] at h
      have hab := digitChar_inj_lt a (h1 a (by simp)) b (h2 b (by simp)) h.1
      subst hab
      rw [ih t2 (fun x hx => h1 x (by simp [hx])) (fun x hx => h2 x (by simp [hx])) h.2]

theorem digits_reverse_lt10 (n : ℕ) : ∀ x ∈ (Nat.digits 10 n).reverse, x < 10 := by
  intro x hx
  exact Nat.digits_lt_base (by norm_num) (List.mem_reverse.mp hx)

theorem decimalStr_ne_zero_str {n : ℕ} (hn : n ≠ 0) :
    String.mk ((Nat.digits 10 n).reverse.map digitChar) ≠ "0" := by
  intro h
  rw [String.ext_iff] at h
  have hdata : (Nat.digits 10 n).reverse.map digitChar = ([0] : List ℕ).map digitChar := h
  have hdig := map_digitChar_inj _ _ (digits_reverse_lt10 n)
    (by intro x hx; simp at hx; omega) hdata
  have hrev := congrArg List.reverse hdig
  simp only [List.reverse_reverse, List.reverse_singleton] at hrev
  have hofd := congrArg (Nat.ofDigits 10) hrev
  rw [Nat.ofDigits_digits] at hofd
  rw [Nat.ofDigits_cons, Nat.ofDigits_nil] at hofd
  omega

theorem decimalStr_injective : Function.Injective decimalStr := by
  intro m n h
  unfold decimalStr at h
  by_cases hm : m = 0 <;> by_cases hn : n = 0
  · omega
  · exfalso
    rw [if_pos hm, if_neg hn] at h
    exact decimalStr_ne_zero_str hn h.symm
  · exfalso
    rw [if_neg hm, if_pos hn] at h
    exact decimalStr_ne_zero_str hm h
  · rw [if_neg hm, if_neg hn, String.ext_iff] at h
    have hd : (Nat.digits 10 m).reverse.map digitChar =
        (Nat.digits 10 n).reverse.map digitChar := h
    have hdig := map_digitChar_inj _ _ (digits_reverse_lt10 m) (digits_reverse_lt10 n) hd
    have hrev := congrArg List.reverse hdig
    simp only [List.reverse_reverse] at hrev
    exact Nat.digits.injective 10 hrev

theorem chunkId_injective : Function.Injective chunkId := by
  intro a b h
  apply decimalStr_injective
  unfold chunkId at h
  apply String.ext
  have hd := congrArg String.data h
  rw [String.data_append, String.data_append] at hd
  exact List.append_cancel_left hd

theorem evalChunkIds_nodup (retrieved_chunks : List ChunkDict) (k : ℕ) :
    (evalChunkIds retrieved_chunks k).Nodup := by
  unfold evalChunkIds
  have hrw : (retrieved_chunks.take k).enum.map (fun p => chunkId p.1) =
      (List.range (retrieved_chunks.take k).length).map chunkId := by
    rw [← List.enum_map_fst (retrieved_chunks.take k), List.map_map]
    rfl
  rw [hrw]
  exact List.Nodup.map chunkId_injective (List.nodup_range _)

theorem evalChunkIds_take (retrieved_chunks : List ChunkDict) (k : ℕ) :
    (evalChunkIds retrieved_chunks k).take k = evalChunkIds retrieved_chunks k := by
  apply List.take_of_length_le
  unfold evalChunkIds
  rw [List.length_map, List.enum_length, List.length_take]
  exact min_le_left _ _

theorem evalRelevantIds_subset (retrieved_chunks : List ChunkDict) (query : String) (k : ℕ) :
    evalRelevantIds retrieved_chunks query k ⊆ (evalChunkIds retrieved_chunks k).toFinset := by
  intro x hx
  unfold evalRelevantIds at hx
  rw [List.mem_toFinset] at hx
  obtain ⟨p, hp, rfl⟩ := List.mem_map.mp hx
  rw [List.mem_toFinset]
  exact List.mem_map_of_mem _ (List.mem_of_mem_filter hp)

/-! ## Lemmas: counting relevant items -/

theorem countP_mem_le_card {l : List String} (h : l.Nodup) (S : Finset String) :
    l.countP (fun x => decide (x ∈ S)) ≤ S.card := by
  rw [List.countP_eq_length_filter]
  rw [← List.toFinset_card_of_nodup (h.filter _)]
  apply Finset.card_le_card
  intro x hx
  rw [List.mem_toFinset, List.mem_filter] at hx
  simpa using hx.2

theorem countP_eq_card_of_subset {l : List String} (h : l.Nodup) {S : Finset String}
    (hsub : S ⊆ l.toFinset) :
    l.countP (fun x => decide (x ∈ S)) = S.card := by
  rw [List.countP_eq_length_filter, ← List.toFinset_card_of_nodup (h.filter _)]
  congr 1
  ext x
  simp only [List.mem_toFinset, List.mem_filter, decide_eq_true_eq]
  constructor
  · exact fun hx => hx.2
  · intro hx
    exact ⟨List.mem_toFinset.mp (hsub hx), hx⟩

/-! ## Lemmas: metric bounds -/

theorem precision_at_k_bounds (retrieved : List String) (relevant : Finset String) (k : ℕ) :
    0 ≤ precision_at_k retrieved relevant k ∧ precision_at_k retrieved relevant k ≤ 1 := by
  unfold precision_at_k
  split_ifs with hk
  · norm_num
  · have hcount : (retrieved.take k).countP (fun item => decide (item ∈ relevant)) ≤ k :=
      le_trans (List.countP_le_length _)
        (by rw [List.length_take]; exact min_le_left _ _)
    have hk' : 0 < (k : ℝ) := by exact_mod_cast Nat.pos_of_ne_zero hk
    constructor
    · positivity
    · rw [div_le_one hk']
      exact_mod_cast hcount

theorem recall_at_k_bounds {retrieved : List String} {k : ℕ}
    (h : (retrieved.take k).Nodup) (relevant : Finset String) :
    0 ≤ recall_at_k retrieved relevant k ∧ recall_at_k retrieved relevant k ≤ 1 := by
  unfold recall_at_k
  split_ifs with hc
  · norm_num
  · have hcount := countP_mem_le_card h relevant
    have hc' : 0 < (relevant.card : ℝ) := by exact_mod_cast Nat.pos_of_ne_zero hc
    constructor
    · positivity
    · rw [div_le_one hc']
      exact_mod_cast hcount

theorem mrrGo_bounds (relevant : Finset String) :
    ∀ (l : List String) (rank : ℕ), 1 ≤ rank →
      0 ≤ mrrGo relevant l rank ∧ mrrGo relevant l rank ≤ 1 / (rank : ℝ) := by
  intro l
  induction l with
  | nil =>
    intro rank h
    unfold mrrGo
    constructor
    · exact le_rfl
    · positivity
  | cons x t ih =>
    intro rank h
    have hrank : 0 < (rank : ℝ) := by exact_mod_cast h
    unfold mrrGo
    split_ifs with hx
    · exact ⟨by positivity, le_refl _⟩
    · obtain ⟨h0, h1⟩ := ih (rank + 1) (by omega)
      refine ⟨h0, le_trans h1 ?_⟩
      push_cast
      apply one_div_le_one_div_of_le hrank
      linarith

theorem mean_reciprocal_rank_bounds (retrieved : List String) (relevant : Finset String) :
    0 ≤ mean_reciprocal_rank retrieved relevant ∧
      mean_reciprocal_rank retrieved relevant ≤ 1 := by
  obtain ⟨h0, h1⟩ := mrrGo_bounds relevant retrieved 1 le_rfl
  exact ⟨h0, by simpa using h1⟩

theorem log2r_pos {r : ℕ} (h : 1 ≤ r) : 0 < log2r ((r : ℝ) + 1) := by
  unfold log2r
  apply Real.logb_pos (by norm_num)
  have h1 : (1 : ℝ) ≤ (r : ℝ) := by exact_mod_cast h
  linarith

theorem w_antitone {r s : ℕ} (h1 : 1 ≤ r) (h : r ≤ s) :
    1 / log2r ((s : ℝ) + 1) ≤ 1 / log2r ((r : ℝ) + 1) := by
  apply one_div_le_one_div_of_le (log2r_pos h1)
  unfold log2r
  apply Real.logb_le_logb_of_le (by norm_num)
  · positivity
  · have h2 : (r : ℝ) ≤ (s : ℝ) := by exact_mod_cast h
    linarith

theorem dcgGo_nonneg (relevant : Finset String) :
    ∀ (l : List String) (rank : ℕ), 1 ≤ rank → 0 ≤ dcgGo relevant l rank := by
  intro l
  induction l with
  | nil =>
    intro rank _
    simp [dcgGo]
  | cons x t ih =>
    intro rank h
    have ht := ih (rank + 1) (by omega)
    unfold dcgGo
    split_ifs with hx
    · have hw := le_of_lt (one_div_pos.mpr (log2r_pos h))
      linarith
    · linarith

theorem idcgGo_nonneg : ∀ (m rank : ℕ), 1 ≤ rank → 0 ≤ idcgGo m rank := by
  intro m
  induction m with
  | zero =>
    intro rank _
    simp [idcgGo]
  | succ m ih =>
    intro rank h
    have h1 := ih (rank + 1) (by omega)
    have hw := le_of_lt (one_div_pos.mpr (log2r_pos h))
    unfold idcgGo
    linarith

theorem idcgGo_rank_le : ∀ (m rank : ℕ), 1 ≤ rank → idcgGo m (rank + 1) ≤ idcgGo m rank := by
  intro m
  induction m with
  | zero =>
    intro rank _
    simp [idcgGo]
  | succ m ih =>
    intro rank h
    have h1 := ih (rank + 1) (by omega)
    have h2 := w_antitone h (Nat.le_succ rank)
    unfold idcgGo
    push_cast
    push_cast at h1 h2
    linarith

theorem dcgGo_le_idcgGo (relevant : Finset String) :
    ∀ (l : List String) (rank : ℕ), 1 ≤ rank →
      dcgGo relevant l rank ≤
        idcgGo (l.countP (fun x => decide (x ∈ relevant))) rank := by
  intro l
  induction l with
  | nil =>
    intro rank _
    simp [dcgGo, idcgGo]
  | cons x t ih =>
    intro rank h
    by_cases hx : x ∈ relevant
    · have hc : (x :: t).countP (fun y => decide (y ∈ relevant)) =
          t.countP (fun y => decide (y ∈ relevant)) + 1 := by
        rw [List.countP_cons]
        simp [hx]
      rw [hc]
      have hstep : dcgGo relevant (x :: t) rank =
          (if x ∈ relevant then 1 / log2r ((rank : ℝ) + 1) else 0) +
            dcgGo relevant t (rank + 1) := rfl
      have histep : idcgGo (t.countP (fun y => decide (y ∈ relevant)) + 1) rank =
          1 / log2r ((rank : ℝ) + 1) +
            idcgGo (t.countP (fun y => decide (y ∈ relevant))) (rank + 1) := rfl
      rw [hstep, if_pos hx, histep]
      have := ih (rank + 1) (by omega)
      linarith
    · have hc : (x :: t).countP (fun y => decide (y ∈ relevant)) =
          t.countP (fun y => decide (y ∈ relevant)) := by
        rw [List.countP_cons]
        simp [hx]
      rw [hc]
      have hstep : dcgGo relevant (x :: t) rank =
          (if x ∈ relevant then 1 / log2r ((rank : ℝ) + 1) else 0) +
            dcgGo relevant t (rank + 1) := rfl
      rw [hstep, if_neg hx]
      have h1 := ih (rank + 1) (by omega)
      have h2 := idcgGo_rank_le (t.countP (fun y => decide (y ∈ relevant))) rank h
      linarith

theorem idcgGo_mono : ∀ (m m' rank : ℕ), m ≤ m' → 1 ≤ rank →
    idcgGo m rank ≤ idcgGo m' rank := by
  intro m
  induction m with
  | zero =>
    intro m' rank _ h
    have := idcgGo_nonneg m' rank h
    simpa [idcgGo] using this
  | succ m ih =>
    intro m' rank hm h
    cases m' with
    | zero => omega
    | succ m2 =>
      have := ih m2 (rank + 1) (by omega) (by omega)
      unfold idcgGo
      linarith

theorem ndcg_at_k_bounds {retrieved : List String} {k : ℕ}
    (h : (retrieved.take k).Nodup) (relevant : Finset String) :
    0 ≤ ndcg_at_k retrieved relevant k ∧ ndcg_at_k retrieved relevant k ≤ 1 := by
  unfold ndcg_at_k
  split_ifs with h1 h2
  · norm_num
  · constructor
    · exact div_nonneg (dcgGo_nonneg _ _ 1 le_rfl) (le_of_lt h2)
    · rw [div_le_one h2]
      calc dcgGo relevant (retrieved.take k) 1
          ≤ idcgGo ((retrieved.take k).countP (fun x => decide (x ∈ relevant))) 1 :=
            dcgGo_le_idcgGo relevant (retrieved.take k) 1 le_rfl
        _ ≤ idcgGo (min relevant.card k) 1 := by
            apply idcgGo_mono _ _ 1 ?_ le_rfl
            have ha := countP_mem_le_card h relevant
            have hb : (retrieved.take k).countP (fun x => decide (x ∈ relevant)) ≤ k :=
              le_trans (List.countP_le_length _)
                (by rw [List.length_take]; exact min_le_left _ _)
            omega
  · norm_num

theorem f1_score_at_k_bounds {retrieved : List String} {k : ℕ}
    (h : (retrieved.take k).Nodup) (relevant : Finset String) :
    0 ≤ f1_score_at_k retrieved relevant k ∧ f1_score_at_k retrieved relevant k ≤ 1 := by
  obtain ⟨hp0, hp1⟩ := precision_at_k_bounds retrieved relevant k
  obtain ⟨hr0, hr1⟩ := recall_at_k_bounds h relevant
  unfold f1_score_at_k
  split_ifs with h0
  · norm_num
  · have hpq : 0 < precision_at_k retrieved relevant k + recall_at_k retrieved relevant k :=
      lt_of_le_of_ne (by linarith) (Ne.symm h0)
    constructor
    · positivity
    · rw [div_le_one hpq]
      nlinarith

/-- C4 (confirmed): for every candidate list, query and `k`, all five metric
values returned by `evaluate_rag` lie in the closed interval `[0, 1]`. -/
theorem C4_evaluate_rag_metrics_in_unit_interval
    (retrieved_chunks : List ChunkDict) (query : String) (k : ℕ) :
    (0 ≤ (evaluate_rag retrieved_chunks query k).precision_at_k ∧
      (evaluate_rag retrieved_chunks query k).precision_at_k ≤ 1) ∧
    (0 ≤ (evaluate_rag retrieved_chunks query k).recall_at_k ∧
      (evaluate_rag retrieved_chunks query k).recall_at_k ≤ 1) ∧
    (0 ≤ (evaluate_rag retrieved_chunks query k).mrr ∧
      (evaluate_rag retrieved_chunks query k).mrr ≤ 1) ∧
    (0 ≤ (evaluate_rag retrieved_chunks query k).ndcg_at_k ∧
      (evaluate_rag retrieved_chunks query k).ndcg_at_k ≤ 1) ∧
    (0 ≤ (evaluate_rag retrieved_chunks query k).f1_at_k ∧
      (evaluate_rag retrieved_chunks query k).f1_at_k ≤ 1) := by
  have hnodup : ((evalChunkIds retrieved_chunks k).take k).Nodup :=
    List.Nodup.sublist (List.take_sublist _ _) (evalChunkIds_nodup retrieved_chunks k)
  simp only [evaluate_rag]
  exact ⟨precision_at_k_bounds _ _ _, recall_at_k_bounds hnodup _,
    mean_reciprocal_rank_bounds _ _, ndcg_at_k_bounds hnodup _,
    f1_score_at_k_bounds hnodup _⟩

/-- C9 (confirmed): since `evaluate_rag` derives the relevance set from the
ids of the evaluated window itself, its `recall@k` is always exactly `0`
(empty relevance set) or exactly `1`. -/
theorem C9_recall_is_zero_or_one
    (retrieved_chunks : List ChunkDict) (query : String) (k : ℕ) :
    (evaluate_rag retrieved_chunks query k).recall_at_k = 0 ∨
      (evaluate_rag retrieved_chunks query k).recall_at_k = 1 := by
  simp only [evaluate_rag]
  unfold recall_at_k
  split_ifs with hc
  · exact Or.inl rfl
  · right
    have hnodup : (evalChunkIds retrieved_chunks k).Nodup :=
      evalChunkIds_nodup retrieved_chunks k
    rw [evalChunkIds_take retrieved_chunks k,
      countP_eq_card_of_subset hnodup (evalRelevantIds_subset retrieved_chunks query k)]
    have hc' : ((evalRelevantIds retrieved_chunks query k).card : ℝ) ≠ 0 := by
      exact_mod_cast hc
    exact div_self hc'

/-- C5 (confirmed): in the relevance derivation of `evaluate_rag`, the id of
position `i` of the top-`k` window is in the relevance set iff that
candidate's similarity score (defaulting to `1.0` when missing) is strictly
below `0.5`, or the fraction of the query's lower-cased whitespace-split
word set present in the candidate's text exceeds `0.3`. -/
theorem C5_relevance_heuristic (retrieved_chunks : List ChunkDict) (query : String)
    (k i : ℕ) (hi : i < (retrieved_chunks.take k).length) :
    chunkId i ∈ evalRelevantIds retrieved_chunks query k ↔
      ((retrieved_chunks.getD i default).score.getD 1 < (1 / 2 : ℚ) ∨
        (3 / 10 : ℚ) < keywordOverlap (queryWords query) (retrieved_chunks.getD i default)) := by
  have hilen : i < retrieved_chunks.length := by
    rw [List.length_take, lt_min_iff] at hi
    · exact hi.2
  have hgetd : retrieved_chunks.getD i default = (retrieved_chunks.take k).getD i default := by
    rw [List.getD_eq_getElem _ _ hilen, List.getD_eq_getElem _ _ hi, List.getElem_take]
  constructor
  · intro hmem
    unfold evalRelevantIds at hmem
    rw [List.mem_toFinset] at hmem
    obtain ⟨p, hp, hpid⟩ := List.mem_map.mp hmem
    have hpi : p.1 = i := chunkId_injective hpid
    obtain ⟨hpenum, hprel⟩ := List.mem_filter.mp hp
    rw [List.mem_enum_iff_getElem?, hpi, List.getElem?_eq_getElem hi] at hpenum
    have hp2 : (retrieved_chunks.take k)[i] = p.2 := Option.some.inj hpenum
    simp only [isRelevantChunk, Bool.or_eq_true, decide_eq_true_eq] at hprel
    rw [hgetd, List.getD_eq_getElem _ _ hi, hp2]
    exact hprel
  · intro hcrit
    unfold evalRelevantIds
    rw [List.mem_toFinset]
    apply List.mem_map.mpr
    refine ⟨(i, (retrieved_chunks.take k)[i]), List.mem_filter.mpr ⟨?_, ?_⟩, rfl⟩
    · rw [List.mem_enum_iff_getElem?]
      exact List.getElem?_eq_getElem hi
    · simp only [isRelevantChunk, Bool.or_eq_true, decide_eq_true_eq]
      rw [hgetd, List.getD_eq_getElem _ _ hi] at hcrit
      exact hcrit

/-- Witness for `C5_relevance_heuristic` at a concrete input: one candidate
with score `1/4`, `k = 1`, position `0`. -/
theorem C5_witness :
    chunkId 0 ∈
        evalRelevantIds [⟨"", "", "", "", 0, 0, "", some (1 / 4), none, none⟩] "q" 1 ↔
      ((([⟨"", "", "", "", 0, 0, "", some (1 / 4), none, none⟩] :
            List ChunkDict).getD 0 default).score.getD 1 < (1 / 2 : ℚ) ∨
        (3 / 10 : ℚ) < keywordOverlap (queryWords "q")
          (([⟨"", "", "", "", 0, 0, "", some (1 / 4), none, none⟩] :
            List ChunkDict).getD 0 default)) :=
  C5_relevance_heuristic [⟨"", "", "", "", 0, 0, "", some (1 / 4), none, none⟩] "q" 1 0
    (by decide)

/-! ## Reranker (`app/rag/reranker.py`) -/

/-- The Python heap restricted to chunk dictionaries: an address (standing
for `id(obj)`) holds a `ChunkDict` when allocated. -/
def Heap : Type := ℕ → Option ChunkDict

/-- Write one dictionary at one address. -/
def heapUpdate (h : Heap) (addr : ℕ) (d : ChunkDict) : Heap :=
  fun x => if x = addr then some d else h x

/-- Read an allocated dictionary (callers only dereference valid
addresses). -/
def heapGet (h : Heap) (addr : ℕ) : ChunkDict := (h addr).getD default

/-- The copied-and-annotated dictionary for the input dict at 0-based
position `p.1`: `chunk.copy()` followed by setting `rerank_score` (the
cross-encoder output for `(query, chunk_text)`) and `original_rank` (the
1-based input position). -/
def annotateCopy (score : String → String → ℚ) (query : String)
    (p : ℕ × ChunkDict) : ChunkDict :=
  { p.2 with
    rerank_score := some (score query p.2.chunk_text)
    original_rank := some (p.1 + 1) }

/-- The annotation loop of `Reranker.rerank`: each input dict is copied and
annotated, the copies being allocated at the fresh addresses `next`,
`next+1`, ... -/
def rerankAnnotate (score : String → String → ℚ) (query : String) (h : Heap)
    (next : ℕ) (oids : List ℕ) : List (ℕ × ChunkDict) :=
  (oids.map (heapGet h)).enum.map (fun p => (next + p.1, annotateCopy score query p))

/-- The comparator of `reranked.sort(key=lambda x: x["rerank_score"],
reverse=True)`: descending by `rerank_score` (always present here), stable on
ties. -/
def rerankLe (a b : ℕ × ChunkDict) : Bool :=
  decide (b.2.rerank_score.getD 0 ≤ a.2.rerank_score.getD 0)

/-- `Reranker.rerank` over the explicit heap: `oids` are the addresses of
the input dicts, `next` is the next free address, `score` is the pairwise
scoring collaborator (`model.predict`).  Returns the new heap, the new
allocation counter, and the addresses of the reranked copies sorted by
`rerank_score` descending, truncated to `top_k` when given.  Empty input
returns empty output without consulting the model. -/
def rerank (score : String → String → ℚ) (query : String) (h : Heap) (next : ℕ)
    (oids : List ℕ) (top_k : Option ℕ) : Heap × ℕ × List ℕ :=
  if oids = [] then (h, next, [])
  else
    let annotated := rerankAnnotate score query h next oids
    let h2 := annotated.foldl (fun hh q => heapUpdate hh q.1 q.2) h
    let sorted := annotated.mergeSort rerankLe
    let result := sorted.map Prod.fst
    match top_k with
    | some kk => (h2, next + oids.length, result.take kk)
    | none => (h2, next + oids.length, result)

/-- The dictionary returned by `Reranker.compare_retrieval` (over element
type `α`: heap addresses here, dictionary values for the pipeline's
collaborator interface). -/
structure CompareOut (α : Type) where
  original : List α
  reranked : List α
  position_changes : ℕ
  avg_rerank_score : ℚ
deriving DecidableEq

/-- `Reranker.compare_retrieval` over the heap.  `original_ids` and
`reranked_ids` are Python `id(...)` values, i.e. heap addresses:
`position_changes` counts the reranked positions `i` whose address is not
among the first `i+1` original addresses. -/
def compare_retrieval (score : String → String → ℚ) (query : String) (h : Heap)
    (next : ℕ) (oids : List ℕ) (top_k : ℕ) : Heap × ℕ × CompareOut ℕ :=
  let r := rerank score query h next oids (some top_k)
  let original_top := oids.take top_k
  let reranked_top := r.2.2.take top_k
  let position_changes := reranked_top.enum.countP
    (fun p => decide (p.2 ∉ original_top.take (p.1 + 1)))
  let avg := if reranked_top = [] then 0
    else (reranked_top.map (fun o => (heapGet r.1 o).rerank_score.getD 0)).sum /
      (reranked_top.length : ℚ)
  (r.1, r.2.1, ⟨original_top, reranked_top, position_changes, avg⟩)

/-- The content-level view of the annotated copies, in input order: what the
spec calls "the input candidates augmented with `rerank_score` and
`original_rank`". -/
def annotatedChunks (score : String → String → ℚ) (query : String) (h : Heap)
    (oids : List ℕ) : List ChunkDict :=
  (rerankAnnotate score query h 0 oids).map Prod.snd

/-! ## Lemmas: the reranker heap discipline -/

theorem rerank_none_eq (score : String → String → ℚ) (query : String) (h : Heap)
    (next : ℕ) (oids : List ℕ) (hne : oids ≠ []) :
    rerank score query h next oids none =
      ((rerankAnnotate score query h next oids).foldl
          (fun hh q => heapUpdate hh q.1 q.2) h,
        next + oids.length,
        ((rerankAnnotate score query h next oids).mergeSort rerankLe).map Prod.fst) := by
  unfold rerank
  rw [if_neg hne]

theorem rerank_some_eq (score : String → String → ℚ) (query : String) (h : Heap)
    (next : ℕ) (oids : List ℕ) (kk : ℕ) (hne : oids ≠ []) :
    rerank score query h next oids (some kk) =
      ((rerankAnnotate score query h next oids).foldl
          (fun hh q => heapUpdate hh q.1 q.2) h,
        next + oids.length,
        (((rerankAnnotate score query h next oids).mergeSort rerankLe).map
          Prod.fst).take kk) := by
  unfold rerank
  rw [if_neg hne]

theorem rerankAnnotate_fst_map (score : String → String → ℚ) (query : String)
    (h : Heap) (next : ℕ) (oids : List ℕ) :
    (rerankAnnotate score query h next oids).map Prod.fst =
      (List.range oids.length).map (fun i => next + i) := by
  unfold rerankAnnotate
  have h1 : ((oids.map (heapGet h)).enum.map
      (fun p => (next + p.1, annotateCopy score query p))).map Prod.fst =
      (oids.map (heapGet h)).enum.map (fun p => next + p.1) := by
    rw [List.map_map]
    exact List.map_congr_left (fun p _ => rfl)
  have h2 : (oids.map (heapGet h)).enum.map (fun p => next + p.1) =
      ((oids.map (heapGet h)).enum.map Prod.fst).map (fun i => next + i) := by
    rw [List.map_map]
    exact List.map_congr_left (fun p _ => rfl)
  rw [h1, h2, List.enum_map_fst, List.length_map]

theorem rerankAnnotate_fst_nodup (score : String → String → ℚ) (query : String)
    (h : Heap) (next : ℕ) (oids : List ℕ) :
    ((rerankAnnotate score query h next oids).map Prod.fst).Nodup := by
  rw [rerankAnnotate_fst_map]
  exact List.Nodup.map (fun a b hab => by omega) (List.nodup_range _)

theorem rerankAnnotate_fst_ge (score : String → String → ℚ) (query : String)
    (h : Heap) (next : ℕ) (oids : List ℕ) :
    ∀ q ∈ rerankAnnotate score query h next oids, next ≤ q.1 := by
  intro q hq
  unfold rerankAnnotate at hq
  obtain ⟨p, _, rfl⟩ := List.mem_map.mp hq
  exact Nat.le_add_right _ _

theorem foldl_heapUpdate_frame :
    ∀ (l : List (ℕ × ChunkDict)) (h : Heap) (a : ℕ), (∀ q ∈ l, a ≠ q.1) →
      (l.foldl (fun hh q => heapUpdate hh q.1 q.2) h) a = h a := by
  intro l
  induction l with
  | nil => intro h a _; rfl
  | cons q t ih =>
    intro h a hne
    rw [List.foldl_cons]
    rw [ih _ _ (fun r hr => hne r (by simp [hr]))]
    unfold heapUpdate
    rw [if_neg (hne q (by simp))]

theorem foldl_heapUpdate_get :
    ∀ (l : List (ℕ × ChunkDict)) (h : Heap) (q : ℕ × ChunkDict),
      q ∈ l → (l.map Prod.fst).Nodup →
      (l.foldl (fun hh r => heapUpdate hh r.1 r.2) h) q.1 = some q.2 := by
  intro l
  induction l with
  | nil => intro h q hq _; simp at hq
  | cons r t ih =>
    intro h q hq hnd
    rw [List.map_cons, List.nodup_cons] at hnd
    rw [List.foldl_cons]
    rcases List.mem_cons.mp hq with rfl | hqt
    · rw [foldl_heapUpdate_frame t _ _
        (fun s hs heq => hnd.1 (by rw [heq]; exact List.mem_map_of_mem Prod.fst hs))]
      unfold heapUpdate
      rw [if_pos rfl]
    · exact ih _ q hqt hnd.2

/-- C10 (confirmed): `Reranker.rerank` never mutates pre-existing objects:
every heap address allocated before the call (in particular the input list's
dictionaries) holds the same value after the call, because the
`rerank_score`/`original_rank` annotations are written only to fresh
copies. -/
theorem C10_rerank_does_not_mutate_input (score : String → String → ℚ)
    (query : String) (h : Heap) (next : ℕ) (oids : List ℕ) (top_k : Option ℕ)
    (a : ℕ) (ha : a < next) :
    (rerank score query h next oids top_k).1 a = h a := by
  by_cases h0 : oids = []
  · rw [show rerank score query h next oids top_k = (h, next, []) from by
      unfold rerank; rw [if_pos h0]]
  · have hframe : ((rerankAnnotate score query h next oids).foldl
        (fun hh q => heapUpdate hh q.1 q.2) h) a = h a := by
      apply foldl_heapUpdate_frame
      intro q hq
      have := rerankAnnotate_fst_ge score query h next oids q hq
      omega
    cases top_k with
    | none => rw [rerank_none_eq score query h next oids h0]; exact hframe
    | some kk => rw [rerank_some_eq score query h next oids kk h0]; exact hframe

/-- Witness for `C10_rerank_does_not_mutate_input` at a concrete input. -/
theorem C10_witness :
    (rerank (fun _ _ => (1 : ℚ)) "q"
        (fun n => if n = 0 then some default else none) 1 [0] none).1 0 =
      (fun n => if n = 0 then some default else none : Heap) 0 :=
  C10_rerank_does_not_mutate_input (fun _ _ => (1 : ℚ)) "q"
    (fun n => if n = 0 then some default else none) 1 [0] none 0 (by decide)

theorem annotatedChunks_eq (score : String → String → ℚ) (query : String) (h : Heap)
    (next : ℕ) (oids : List ℕ) :
    (rerankAnnotate score query h next oids).map Prod.snd =
      annotatedChunks score query h oids := by
  unfold annotatedChunks rerankAnnotate
  rw [List.map_map, List.map_map]
  exact List.map_congr_left (fun p _ => rfl)

theorem rerankLe_trans : ∀ (a b c : ℕ × ChunkDict),
    rerankLe a b = true → rerankLe b c = true → rerankLe a c = true := by
  intro a b c hab hbc
  simp only [rerankLe, decide_eq_true_eq] at hab hbc ⊢
  exact le_trans hbc hab

theorem rerankLe_total : ∀ (a b : ℕ × ChunkDict),
    (rerankLe a b || rerankLe b a) = true := by
  intro a b
  simp only [rerankLe, Bool.or_eq_true, decide_eq_true_eq]
  exact le_total _ _

/-- C6 (confirmed): with `top_k = None`, `Reranker.rerank` on a non-empty
candidate list returns (the addresses of) a permutation of the input
candidates, each augmented with a `rerank_score` and an `original_rank`
equal to its 1-based input position, and the `rerank_score` values are
monotonically non-increasing along the output. -/
theorem C6_rerank_perm_and_sorted (score : String → String → ℚ) (query : String)
    (h : Heap) (next : ℕ) (oids : List ℕ) (hne : oids ≠ []) :
    ((rerank score query h next oids none).2.2.map
        (heapGet (rerank score query h next oids none).1)).Perm
      (annotatedChunks score query h oids) ∧
    ((rerank score query h next oids none).2.2.map
        (fun o =>
          (heapGet (rerank score query h next oids none).1 o).rerank_score.getD 0)).Pairwise
      (fun a b => b ≤ a) := by
  rw [rerank_none_eq score query h next oids hne]
  dsimp only
  set ann := rerankAnnotate score query h next oids with hann
  set hp := ann.foldl (fun hh q => heapUpdate hh q.1 q.2) h with hhp
  set srt := ann.mergeSort rerankLe with hsrt
  have hperm : srt.Perm ann := List.mergeSort_perm ann rerankLe
  have hget : ∀ q ∈ srt, heapGet hp q.1 = q.2 := by
    intro q hq
    have hmem : q ∈ ann := hperm.mem_iff.mp hq
    unfold heapGet
    rw [hhp, foldl_heapUpdate_get ann h q hmem
      (rerankAnnotate_fst_nodup score query h next oids)]
    rfl
  constructor
  · have hmapeq : (srt.map Prod.fst).map (heapGet hp) = srt.map Prod.snd := by
      rw [List.map_map]
      exact List.map_congr_left (fun q hq => hget q hq)
    rw [hmapeq, ← annotatedChunks_eq score query h next oids]
    exact hperm.map Prod.snd
  · have hsorted : srt.Pairwise (fun a b => rerankLe a b = true) :=
      List.sorted_mergeSort rerankLe_trans rerankLe_total ann
    have hmapeq : (srt.map Prod.fst).map
        (fun o => (heapGet hp o).rerank_score.getD 0) =
        srt.map (fun q => q.2.rerank_score.getD 0) := by
      rw [List.map_map]
      exact List.map_congr_left (fun q hq => by
        show (heapGet hp q.1).rerank_score.getD 0 = q.2.rerank_score.getD 0
        rw [hget q hq])
    rw [hmapeq]
    refine hsorted.map (fun q => q.2.rerank_score.getD 0) ?_
    intro a b hab
    simp only [rerankLe, decide_eq_true_eq] at hab
    exact hab

/-- Witness for `C6_rerank_perm_and_sorted` at a concrete input. -/
theorem C6_witness :
    ((rerank (fun _ _ => (1 : ℚ)) "q"
        (fun n => if n = 0 then some default else none) 1 [0] none).2.2.map
      (heapGet (rerank (fun _ _ => (1 : ℚ)) "q"
        (fun n => if n = 0 then some default else none) 1 [0] none).1)).Perm
      (annotatedChunks (fun _ _ => (1 : ℚ)) "q"
        (fun n => if n = 0 then some default else none) [0]) ∧
    ((rerank (fun _ _ => (1 : ℚ)) "q"
        (fun n => if n = 0 then some default else none) 1 [0] none).2.2.map
      (fun o => (heapGet (rerank (fun _ _ => (1 : ℚ)) "q"
        (fun n => if n = 0 then some default else none) 1 [0] none).1
          o).rerank_score.getD 0)).Pairwise (fun a b => b ≤ a) :=
  C6_rerank_perm_and_sorted (fun _ _ => (1 : ℚ)) "q"
    (fun n => if n = 0 then some default else none) 1 [0] (by decide)

/-- A two-candidate heap: address 0 holds a dict with `chunk_text = "a"`,
address 1 holds a dict with `chunk_text = "b"`. -/
def exHeap : Heap := fun n =>
  if n = 0 then some ⟨"", "", "", "a", 0, 0, "", none, none, none⟩
  else if n = 1 then some ⟨"", "", "", "b", 0, 0, "", none, none, none⟩
  else none

/-- A cross-encoder stub that keeps the original order: the first candidate
scores 2, the second 1. -/
def exScore : String → String → ℚ := fun _ t => if t = "a" then 2 else 1

unseal List.merge List.mergeSort in
/-- C1 (code bug, evaluated at the failing input): with two candidates whose
cross-encoder scores preserve the retrieval order, `compare_retrieval`
returns the reranked list in the identical order (`"a"` then `"b"`), yet
`position_changes = 2`, not `0`: the code compares Python `id()`s of the
original dicts against the `id()`s of the fresh copies made by `rerank`,
which can never match. -/
theorem C1_id_comparison_bug :
    ((compare_retrieval exScore "q" exHeap 2 [0, 1] 2).2.2.reranked.map
        (fun o => (heapGet (compare_retrieval exScore "q" exHeap 2 [0, 1] 2).1
          o).chunk_text) = ["a", "b"]) ∧
    ([0, 1].map (fun o => (heapGet exHeap o).chunk_text) = ["a", "b"]) ∧
    (compare_retrieval exScore "q" exHeap 2 [0, 1] 2).2.2.position_changes = 2 := by
  decide

/-! ## Reranker lazy model load (`Reranker._ensure_model_loaded`) -/

/-- The mutable state of a `Reranker` instance: `self.model` (the loaded
cross-encoder handle, of collaborator type `α`) and `self._load_error`
(the cached `str(e)` of a failed load). -/
structure RerankerState (α : Type) where
  model : Option α
  load_error : Option String

/-- `_ensure_model_loaded`: attempt the lazy load only when both `model` and
`_load_error` are `None`; `loadResult` is the outcome the external
`CrossEncoder` constructor would produce (a handle, or the exception text
`str(e)`) and is consulted only in that case.  On failure the error text is
cached and a `RuntimeError` is raised.  The `elif self._load_error:` branch
tests Python truthiness, under which both `None` and the empty string are
falsy. -/
def ensure_model_loaded {α : Type} (model_name : String) (s : RerankerState α)
    (loadResult : Except String α) : RerankerState α × Except String Unit :=
  if s.model.isNone && s.load_error.isNone then
    match loadResult with
    | .ok m => ({ model := some m, load_error := none }, .ok ())
    | .error e =>
      ({ model := none, load_error := some e },
        .error ("Failed to load reranker model " ++ model_name ++ ": " ++ e))
  else if s.load_error.getD "" ≠ "" then
    (s, .error ("Reranker model failed to load: " ++ s.load_error.getD ""))
  else
    (s, .ok ())

/-- C8 (corrected): the load state makes only the one-time transition
`unloaded → loaded` or `unloaded → failed`, each terminal for the instance,
and after a failure the load is never re-attempted (the result does not
depend on `loadResult`).  After a failure with a *non-empty* cached message
every call raises the cached error; after a failure with an *empty* message
(`str(e) = ""`, falsy in Python) the `elif self._load_error:` guard does not
fire and the call returns without raising the cached error — refuting the
original "every subsequent call raises an error derived from the cached
failure". -/
theorem C8_lazy_load_state_machine {α : Type} (model_name : String)
    (s : RerankerState α) (r : Except String α) :
    (∀ m : α, s.model = some m → s.load_error = none →
      ensure_model_loaded model_name s r = (s, .ok ())) ∧
    (∀ e : String, s.load_error = some e → e ≠ "" →
      ensure_model_loaded model_name s r =
        (s, .error ("Reranker model failed to load: " ++ e))) ∧
    (s.load_error = some "" →
      ensure_model_loaded model_name s r = (s, .ok ())) ∧
    (s.model = none → s.load_error = none →
      (∀ m : α, r = .ok m →
        ensure_model_loaded model_name s r =
          (⟨some m, none⟩, .ok ())) ∧
      (∀ e : String, r = .error e →
        ensure_model_loaded model_name s r =
          (⟨none, some e⟩,
            .error ("Failed to load reranker model " ++ model_name ++ ": " ++ e)))) := by
  refine ⟨?_, ?_, ?_, ?_⟩
  · intro m hm he
    unfold ensure_model_loaded
    rw [hm, he]
    rfl
  · intro e he hene
    unfold ensure_model_loaded
    rw [he]
    have h1 : ((s.model.isNone && (some e : Option String).isNone) = false) := by
      simp
    rw [h1]
    simp only [Bool.false_eq_true, if_false, Option.getD_some]
    rw [if_pos hene]
  · intro he
    unfold ensure_model_loaded
    rw [he]
    have h1 : ((s.model.isNone && (some "" : Option String).isNone) = false) := by
      simp
    rw [h1]
    simp
  · intro hm he
    constructor
    · intro m hr
      unfold ensure_model_loaded
      rw [hm, he, hr]
      rfl
    · intro e hr
      unfold ensure_model_loaded
      rw [hm, he, hr]
      rfl

/-- Witness for `C8_lazy_load_state_machine`: a failed instance with cached
message `"boom"` re-raises it without re-attempting the load. -/
theorem C8_witness :
    ensure_model_loaded "m" ({ model := none, load_error := some "boom" } :
        RerankerState Unit) (Except.ok ()) =
      ({ model := none, load_error := some "boom" },
        Except.error ("Reranker model failed to load: " ++ "boom")) :=
  (C8_lazy_load_state_machine "m"
    ({ model := none, load_error := some "boom" } : RerankerState Unit)
    (Except.ok ())).2.1 "boom" rfl (by decide)

/-- C8 counterexample: a load failure whose exception text is empty is
cached, but a subsequent call returns `ok` instead of raising an error
derived from the cached failure (and still does not retry the load). -/
theorem C8_counterexample :
    ensure_model_loaded "m" ({ model := none, load_error := some "" } :
        RerankerState Unit) (Except.ok ()) =
      ({ model := none, load_error := some "" }, Except.ok ()) := rfl

/-! ## Pipeline orchestrator (`app/rag/pipeline.py`) -/

/-- The `RAGResult` dataclass. -/
structure RAGResult where
  query : String
  answer : String
  contexts : List ChunkDict
  original_contexts : Option (List ChunkDict)
  reranked_contexts : Option (List ChunkDict)
  evaluation_metrics : Option RagMetrics
  reranking_comparison : Option (CompareOut ChunkDict)

/-- `RAGPipeline.answer_query`.  The collaborators are passed explicitly:
`retrieve` (the retriever), `generate` (the answer-generation step
`self.llm.generate_answer`), and `compareRetrieval` (the reranker's
`compare_retrieval`, viewed at the level of dictionary values).
`pipeline_use_reranking` / `pipeline_use_evaluation` are the pipeline-level
defaults; the per-call `Option Bool` arguments override them when present.
The evaluation step is the embedded `evaluate_rag`. -/
noncomputable def answer_query
    (retrieve : String → ℕ → List ChunkDict)
    (generate : String → List ChunkDict → String)
    (compareRetrieval : String → List ChunkDict → ℕ → CompareOut ChunkDict)
    (pipeline_use_reranking pipeline_use_evaluation : Bool)
    (query : String) (top_k : ℕ)
    (use_reranking use_evaluation : Option Bool) : RAGResult :=
  let should_rerank := use_reranking.getD pipeline_use_reranking
  let retrieve_k := if should_rerank then top_k * 2 else top_k
  let original_contexts := retrieve query retrieve_k
  let cmp : Option (CompareOut ChunkDict) :=
    if should_rerank then some (compareRetrieval query original_contexts top_k) else none
  let contexts := match cmp with
    | some c => c.reranked
    | none => original_contexts
  let answer := generate query (contexts.take top_k)
  let evaluation_metrics :=
    if use_evaluation.getD pipeline_use_evaluation then
      some (evaluate_rag (contexts.take top_k) query top_k)
    else none
  { query := query
    answer := answer
    contexts := contexts.take top_k
    original_contexts := if cmp.isSome then some (original_contexts.take top_k) else none
    reranked_contexts := if cmp.isSome then some (contexts.take top_k) else none
    evaluation_metrics := evaluation_metrics
    reranking_comparison := cmp }

/-- C7 (confirmed): per query, the retriever is asked for exactly
`top_k * 2` candidates when reranking is enabled and exactly `top_k` when it
is disabled; the answer-generation collaborator receives exactly the first
`top_k` items of the current candidate list (the reranked list when
reranking ran, else the raw retrieval); and the result's `contexts` equals
the list handed to the generation collaborator, with length at most
`top_k`. -/
theorem C7_pipeline_plumbing
    (retrieve : String → ℕ → List ChunkDict)
    (generate : String → List ChunkDict → String)
    (compareRetrieval : String → List ChunkDict → ℕ → CompareOut ChunkDict)
    (pipeline_use_reranking pipeline_use_evaluation : Bool)
    (query : String) (top_k : ℕ) (use_reranking use_evaluation : Option Bool) :
    (answer_query retrieve generate compareRetrieval pipeline_use_reranking
        pipeline_use_evaluation query top_k use_reranking use_evaluation).contexts.length
      ≤ top_k ∧
    (answer_query retrieve generate compareRetrieval pipeline_use_reranking
        pipeline_use_evaluation query top_k use_reranking use_evaluation).answer =
      generate query
        (answer_query retrieve generate compareRetrieval pipeline_use_reranking
          pipeline_use_evaluation query top_k use_reranking use_evaluation).contexts ∧
    (use_reranking.getD pipeline_use_reranking = true →
      (answer_query retrieve generate compareRetrieval pipeline_use_reranking
          pipeline_use_evaluation query top_k use_reranking use_evaluation).contexts =
        (compareRetrieval query (retrieve query (top_k * 2)) top_k).reranked.take top_k) ∧
    (use_reranking.getD pipeline_use_reranking = false →
      (answer_query retrieve generate compareRetrieval pipeline_use_reranking
          pipeline_use_evaluation query top_k use_reranking use_evaluation).contexts =
        (retrieve query top_k).take top_k) := by
  by_cases hsr : use_reranking.getD pipeline_use_reranking
  · refine ⟨?_, ?_, ?_, ?_⟩
    · simp only [answer_query, hsr, if_true]
      rw [List.length_take]
      exact min_le_left _ _
    · simp only [answer_query, hsr]
    · intro _
      simp only [answer_query, hsr, if_true]
    · intro hcon
      rw [hsr] at hcon
      cases hcon
  · rw [Bool.not_eq_true] at hsr
    refine ⟨?_, ?_, ?_, ?_⟩
    · simp only [answer_query, hsr, Bool.false_eq_true, if_false]
      rw [List.length_take]
      exact min_le_left _ _
    · simp only [answer_query, hsr]
    · intro hcon
      rw [hsr] at hcon
      cases hcon
    · intro _
      simp only [answer_query, hsr, Bool.false_eq_true, if_false]

/-- Witness for `C7_pipeline_plumbing`: both override branches applied at a
concrete instantiation. -/
theorem C7_witness :
    ((answer_query (fun _ _ => ([] : List ChunkDict)) (fun _ _ => "ans")
        (fun _ _ _ => ⟨[], [], 0, 0⟩) false false "q" 3 (some true) none).contexts =
      (((fun (_ : String) (_ : List ChunkDict) (_ : ℕ) =>
          (⟨[], [], 0, 0⟩ : CompareOut ChunkDict)) "q"
        ((fun (_ : String) (_ : ℕ) => ([] : List ChunkDict)) "q" (3 * 2))
        3).reranked.take 3)) ∧
    ((answer_query (fun _ _ => ([] : List ChunkDict)) (fun _ _ => "ans")
        (fun _ _ _ => ⟨[], [], 0, 0⟩) false false "q" 3 (some false) none).contexts =
      ((fun (_ : String) (_ : ℕ) => ([] : List ChunkDict)) "q" 3).take 3) :=
  ⟨(C7_pipeline_plumbing (fun _ _ => ([] : List ChunkDict)) (fun _ _ => "ans")
      (fun _ _ _ => ⟨[], [], 0, 0⟩) false false "q" 3 (some true) none).2.2.1 rfl,
    (C7_pipeline_plumbing (fun _ _ => ([] : List ChunkDict)) (fun _ _ => "ans")
      (fun _ _ _ => ⟨[], [], 0, 0⟩) false false "q" 3 (some false) none).2.2.2 rfl⟩
